import Mathlib

/-!
Shallow embedding of mruby's `src/symbol.c`: the symbol interning registry
(`sym_intern`, `mrb_check_intern`, `mrb_sym2name_len`), the name classifier
(`is_identchar`, `is_special_global_name`, `symname_p`), the inspect
formatter (`sym_inspect`) and symbol comparison (`sym_cmp`).

Nat strings are modelled as `List Nat` (each element a byte value); a name
argument `(const char *name, size_t len)` is modelled as the list of its
first `len` bytes, so the list's length is `len`.  The C functions that scan
null-terminated strings read the terminating `0` byte; reading one past the
end of the modelled list is rendered by `List.headD _ 0`, which returns the
terminator `0` exactly where C would read it.
-/

set_option autoImplicit false

namespace MrubySymbol


/-- `struct symbol_name { mrb_bool lit : 1; uint16_t len; const char *name; }`.
The `name`/`len` pair is modelled as the list of the first `len` bytes, so
`len` is `name.length`. -/
structure SymbolName where
  lit : Bool
  name : List Nat
deriving DecidableEq

/-- The part of `mrb_state` used by `symbol.c`: the `name2sym` hash table
(modelled as an association list in insertion order) and the `symidx`
counter. -/
structure MrbState where
  name2sym : List (SymbolName × Nat)
  symidx : Nat
deriving DecidableEq

/-- The only recoverable failure of the module: `mrb_raise(E_ARGUMENT_ERROR,
"symbol length too long")`. -/
inductive SymErr where
  | nameTooLong
deriving DecidableEq

/-- `UINT16_MAX`. -/
def UINT16_MAX : Nat := 65535

/-- `kh_get(n2s, ...)` with the key-equality macro `sym_hash_equal`:
`a.len == b.len && memcmp(a.name, b.name, a.len) == 0`, i.e. equality of the
byte-content lists.  The `lit` tag takes no part in equality.  Returns the
value of the (unique) entry whose content equals `s`. -/
def kh_get_n2s (entries : List (SymbolName × Nat)) (s : List Nat) : Option Nat :=
  match entries with
  | [] => none
  | (key, v) :: rest => if key.name = s then some v else kh_get_n2s rest s

/-- Sign extension of a byte read through `signed char` (`SIGN_EXTEND_CHAR`). -/
def SIGN_EXTEND_CHAR (c : Nat) : Int :=
  if c < 128 then (c : Int) else (c : Int) - 256

/-- `sym_hash_func`: `h = (h << 5) - h + *p++` over the `len` bytes, on a
32-bit unsigned accumulator (`*p` is read through `char`, hence the sign
extension). -/
def sym_hash_func (s : List Nat) : Nat :=
  s.foldl (fun h c => (((31 * (h : Int) + SIGN_EXTEND_CHAR c) % 4294967296 + 4294967296) % 4294967296).toNat) 0

/-- `sym_intern(mrb, name, len, lit)`.  Rejects `len > UINT16_MAX` with the
"symbol length too long" error before touching the table; otherwise looks the
content up (`kh_get`) and returns the existing id, or assigns
`sym = ++mrb->symidx`, stores the bytes (by reference when `lit`, as a fresh
copy otherwise -- both store the same byte content in the model) and inserts
the new entry (`kh_put`). -/
def sym_intern (mrb : MrbState) (name : List Nat) (lit : Bool) :
    Except SymErr (Nat × MrbState) :=
  if name.length > UINT16_MAX then
    .error .nameTooLong
  else
    match kh_get_n2s mrb.name2sym name with
    | some sym => .ok (sym, mrb)
    | none =>
      let sym := mrb.symidx + 1
      .ok (sym, { name2sym := mrb.name2sym ++ [({ lit := lit, name := name }, sym)],
                  symidx := sym })

/-- `mrb_intern`: owned-copy mode. -/
def mrb_intern (mrb : MrbState) (name : List Nat) : Except SymErr (Nat × MrbState) :=
  sym_intern mrb name false

/-- `mrb_intern_static`: borrowed/literal mode. -/
def mrb_intern_static (mrb : MrbState) (name : List Nat) : Except SymErr (Nat × MrbState) :=
  sym_intern mrb name true

/-- `mrb_check_intern(mrb, name, len)`: same length gate, then a pure
`kh_get` lookup; returns the symbol value or nil (here `none`), never
mutating `mrb`. -/
def mrb_check_intern (mrb : MrbState) (name : List Nat) :
    Except SymErr (Option Nat) :=
  if name.length > UINT16_MAX then
    .error .nameTooLong
  else
    .ok (kh_get_n2s mrb.name2sym name)

/-- The bucket scan of `mrb_sym2name_len`: first entry whose value is `sym`. -/
def findByValue (entries : List (SymbolName × Nat)) (sym : Nat) : Option (List Nat) :=
  match entries with
  | [] => none
  | (key, v) :: rest => if v = sym then some key.name else findByValue rest sym

/-- `mrb_sym2name_len(mrb, sym, lenp)`: linear scan over all live entries for
the first one whose value is `sym`; returns its `(name, len)` (the byte list
carries both), or `NULL`/len 0 (here `none`) when missing. -/
def mrb_sym2name_len (mrb : MrbState) (sym : Nat) : Option (List Nat) :=
  findByValue mrb.name2sym sym

/-- `mrb_init_symtbl`: empty table, `symidx = 0`. -/
def mrb_init_symtbl : MrbState :=
  { name2sym := [], symidx := 0 }

/-- One intern request folded into the state; a raised "symbol length too
long" error aborts the call with the state untouched (`mrb_raise` unwinds
before any mutation). -/
def internStep (mrb : MrbState) (req : List Nat × Bool) : MrbState :=
  match sym_intern mrb req.1 req.2 with
  | .ok (_, st) => st
  | .error _ => mrb

/-- Interning a whole list of `(bytes, lit)` requests starting from the
freshly initialised registry. -/
def internAll (reqs : List (List Nat × Bool)) : MrbState :=
  reqs.foldl internStep mrb_init_symtbl

/-- The ids column of the table, in insertion order. -/
def idsOf (st : MrbState) : List Nat :=
  st.name2sym.map Prod.snd

/-- The byte-content column of the table, in insertion order. -/
def namesOf (st : MrbState) : List (List Nat) :=
  st.name2sym.map (fun e => e.1.name)

/-- Registry invariant holding for every state reachable from
`mrb_init_symtbl`: the ids are exactly `1, 2, ..., n` in insertion order and
`symidx` equals the number of entries. -/
def RegistryInv (st : MrbState) : Prop :=
  idsOf st = List.range' 1 st.name2sym.length ∧ st.symidx = st.name2sym.length

/-- Spec-side bookkeeping for the monotonic-allocation claim: the distinct
byte strings of the requests that pass the length gate, in order of first
occurrence ("the k-th distinct byte string interned"). -/
def distinctInterned (reqs : List (List Nat × Bool)) : List (List Nat) :=
  reqs.foldl
    (fun acc r =>
      if r.1.length ≤ UINT16_MAX then
        (if r.1 ∈ acc then acc else acc ++ [r.1])
      else acc)
    []

/-! ### Character classification (`ctype` macros as used on ASCII) -/

/-- `ISDIGIT`. -/
def ISDIGIT (c : Nat) : Bool := decide (48 ≤ c ∧ c ≤ 57)

/-- `ISUPPER`. -/
def ISUPPER (c : Nat) : Bool := decide (65 ≤ c ∧ c ≤ 90)

/-- `ISLOWER`. -/
def ISLOWER (c : Nat) : Bool := decide (97 ≤ c ∧ c ≤ 122)

/-- `ISALPHA`. -/
def ISALPHA (c : Nat) : Bool := ISUPPER c || ISLOWER c

/-- `ISALNUM`. -/
def ISALNUM (c : Nat) : Bool := ISALPHA c || ISDIGIT c

/-- `#define is_identchar(c) (SIGN_EXTEND_CHAR(c)!=-1&&(ISALNUM(c) || (c) == '_'))`. -/
def is_identchar (c : Nat) : Bool :=
  decide (SIGN_EXTEND_CHAR c ≠ -1) && (ISALNUM c || decide (c = 95))

/-- The fixed first-character set of `is_special_global_name`'s first switch
case group: `~ * $ ? ! @ / \ ; , . = : < > " & ` + '0'` and the quote
characters. -/
def isSpecialGlobalChar (c : Nat) : Bool :=
  decide (c = 126 ∨ c = 42 ∨ c = 36 ∨ c = 63 ∨ c = 33 ∨ c = 64 ∨
          c = 47 ∨ c = 92 ∨ c = 59 ∨ c = 44 ∨ c = 46 ∨ c = 61 ∨
          c = 58 ∨ c = 60 ∨ c = 62 ∨ c = 34 ∨
          c = 38 ∨ c = 96 ∨ c = 39 ∨ c = 43 ∨
          c = 48)

/-- `!*m`: the scan position reads the terminating null (end of the modelled
list, or an embedded 0 byte). -/
def atEnd (m : List Nat) : Bool := m.headD 0 = 0

/-- `is_special_global_name(m)`: the body of the `$`-name special grammar. -/
def is_special_global_name (m : List Nat) : Bool :=
  let c := m.headD 0
  if isSpecialGlobalChar c then
    atEnd (m.drop 1)
  else if c = 45 then
    let m1 := m.drop 1
    if is_identchar (m1.headD 0) then atEnd (m1.drop 1) else atEnd m1
  else if ISDIGIT c then
    atEnd ((m.drop 1).dropWhile (fun ch => ISDIGIT ch))
  else
    false

/-- The shared tail of `symname_p` starting at label `id:`: first character
must be `_` or a letter, then a run of identifier characters, then (when
`localid`) an optional single `!`, `?` or `=`, then the terminator. -/
def symname_id_tail (localid : Bool) (m : List Nat) : Bool :=
  let c := m.headD 0
  if c ≠ 95 ∧ ¬ ISALPHA c = true then false
  else
    let m1 := m.dropWhile (fun ch => is_identchar ch)
    let m2 :=
      if localid && (decide (m1.headD 0 = 33) || decide (m1.headD 0 = 63) || decide (m1.headD 0 = 61)) then
        m1.drop 1
      else m1
    atEnd m2

/-- `symname_p(name)`: the bare-name classifier.  The big `switch (*m)`
becomes a chain of tests on the first byte. -/
def symname_p (name : List Nat) : Bool :=
  let c := name.headD 0
  if c = 0 then false
  else if c = 36 then  -- '$'
    let m := name.drop 1
    if is_special_global_name m then true else symname_id_tail false m
  else if c = 64 then  -- '@'
    let m := name.drop 1
    let m3 := if m.headD 0 = 64 then m.drop 1 else m
    symname_id_tail false m3
  else if c = 60 then  -- '<'
    let m := name.drop 1
    let m3 :=
      if m.headD 0 = 60 then m.drop 1
      else if m.headD 0 = 61 then
        let m2 := m.drop 1
        if m2.headD 0 = 62 then m2.drop 1 else m2
      else m
    atEnd m3
  else if c = 62 then  -- '>'
    let m := name.drop 1
    atEnd (if m.headD 0 = 62 ∨ m.headD 0 = 61 then m.drop 1 else m)
  else if c = 61 then  -- '='
    let m := name.drop 1
    if m.headD 0 = 126 then atEnd (m.drop 1)
    else if m.headD 0 = 61 then
      let m2 := m.drop 1
      atEnd (if m2.headD 0 = 61 then m2.drop 1 else m2)
    else false
  else if c = 42 then  -- '*'
    let m := name.drop 1
    atEnd (if m.headD 0 = 42 then m.drop 1 else m)
  else if c = 33 then  -- '!'
    let m := name.drop 1
    atEnd (if m.headD 0 = 61 then m.drop 1 else m)
  else if c = 43 ∨ c = 45 then  -- '+' '-'
    let m := name.drop 1
    atEnd (if m.headD 0 = 64 then m.drop 1 else m)
  else if c = 124 then  -- '|'
    let m := name.drop 1
    atEnd (if m.headD 0 = 124 then m.drop 1 else m)
  else if c = 38 then  -- '&'
    let m := name.drop 1
    atEnd (if m.headD 0 = 38 then m.drop 1 else m)
  else if c = 94 ∨ c = 47 ∨ c = 37 ∨ c = 126 ∨ c = 96 then  -- ^ / % ~ `
    atEnd (name.drop 1)
  else if c = 91 then  -- '['
    let m := name.drop 1
    if m.headD 0 ≠ 93 then false
    else
      let m2 := m.drop 1
      atEnd (if m2.headD 0 = 61 then m2.drop 1 else m2)
  else
    symname_id_tail (! ISUPPER c) name

/-- `strlen` applied to the stored name pointer: number of bytes before the
first null (the stored copy is terminated right after the `len` bytes). -/
def strlenOf (name : List Nat) : Nat :=
  (name.takeWhile (fun c => c != 0)).length

/-- Result shape of `sym_inspect`: either the bare `:name` string, or the
escaped/quoted form delegated to `mrb_str_dump` (kept abstract, carrying the
raw name it would escape). -/
inductive InspectForm where
  | bare (s : List Nat)
  | escaped (s : List Nat)
deriving DecidableEq

/-- `sym_inspect`: builds `":" ++ name` and keeps it exactly when
`symname_p(name)` holds and `strlen(name)` agrees with the stored length;
otherwise the string is replaced by the dumped (quoted, escaped) form. -/
def sym_inspect (mrb : MrbState) (sym : Nat) : Option InspectForm :=
  (mrb_sym2name_len mrb sym).map fun name =>
    if symname_p name && (strlenOf name == name.length) then
      .bare (58 :: name)
    else
      .escaped name

/-- `memcmp(p1, p2, n)` reduced to its sign, reading byte values. -/
def memcmpBytes : List Nat → List Nat → Nat → Int
  | _, _, 0 => 0
  | x :: xs, y :: ys, n + 1 =>
    if x < y then -1 else if y < x then 1 else memcmpBytes xs ys n
  | _, _, _ + 1 => 0

/-- `sym_cmp` on two symbol ids: `0` for identical ids, otherwise `memcmp`
over the shorter length with the shorter name winning ties.  `none` marks the
case where a name is missing (the C code would dereference `NULL`). -/
def sym_cmp (mrb : MrbState) (sym1 sym2 : Nat) : Option Int :=
  if sym1 = sym2 then some 0
  else
    match mrb_sym2name_len mrb sym1, mrb_sym2name_len mrb sym2 with
    | some p1, some p2 =>
      let len := min p1.length p2.length
      let retval := memcmpBytes p1 p2 len
      if retval = 0 then
        if p1.length = p2.length then some 0
        else if p1.length > p2.length then some 1
        else some (-1)
      else if retval > 0 then some 1
      else some (-1)
    | _, _ => none

/-! ### Spec-side definitions used to state the classifier claims -/

/-- Spec-side: "a run of identifier characters optionally followed by one
trailing `!`, `?`, or `=`". -/
def runThenOptSuffix : List Nat → Bool
  | [] => true
  | [c] => is_identchar c || decide (c = 33) || decide (c = 63) || decide (c = 61)
  | c :: cs => is_identchar c && runThenOptSuffix cs

/-- The special-global grammar exactly as claim C6 states it: after `$`, a
single character of the fixed special set, or `-` followed by exactly one
identifier character, or one or more digits, or a normal identifier tail
(letter or underscore followed by identifier characters), fully consumed. -/
def dollarNameClaim (rest : List Nat) : Bool :=
  (match rest with
   | [c] => isSpecialGlobalChar c
   | _ => false)
  ||
  (match rest with
   | c :: cs =>
     decide (c = 45) && (match cs with | [x] => is_identchar x | _ => false)
   | [] => false)
  ||
  (match rest with
   | c :: cs => ISDIGIT c && cs.all (fun ch => ISDIGIT ch)
   | [] => false)
  ||
  (match rest with
   | c :: cs => (decide (c = 95) || ISALPHA c) && cs.all (fun ch => is_identchar ch)
   | [] => false)

/-- The amended special-global grammar, matching the code: after `$`, a
single character of the fixed special set (which contains `0`), or `-`
followed by zero or one identifier character, or a nonzero digit followed by
zero or more digits, or a normal identifier tail. -/
def dollarNameAmended (rest : List Nat) : Bool :=
  (match rest with
   | [c] => isSpecialGlobalChar c
   | _ => false)
  ||
  (match rest with
   | c :: cs =>
     decide (c = 45) &&
     (cs.isEmpty || (match cs with | [x] => is_identchar x | _ => false))
   | [] => false)
  ||
  (match rest with
   | c :: cs => ISDIGIT c && decide (c ≠ 48) && cs.all (fun ch => ISDIGIT ch)
   | [] => false)
  ||
  (match rest with
   | c :: cs => (decide (c = 95) || ISALPHA c) && cs.all (fun ch => is_identchar ch)
   | [] => false)

/-- The identifier-name grammar exactly as claim C8 states it: a letter or
underscore, then a run of identifier characters, with one optional trailing
`!`, `?` or `=` permitted only when the first character is not uppercase. -/
def identSuffixClaim (name : List Nat) : Bool :=
  match name with
  | [] => false
  | c :: cs =>
    (decide (c = 95) || ISALPHA c) &&
    (if ISUPPER c then cs.all (fun ch => is_identchar ch) else runThenOptSuffix cs)

/-- Spec-side: standard lexicographic comparison of byte strings as a
`-1 / 0 / 1` result ("lexicographic byte ordering" with the shorter string
first on a tie). -/
def lexOrdInt : List Nat → List Nat → Int
  | [], [] => 0
  | [], _ :: _ => -1
  | _ :: _, [] => 1
  | x :: xs, y :: ys => if x < y then -1 else if y < x then 1 else lexOrdInt xs ys

end MrubySymbol

namespace MrubySymbol

theorem kh_get_eq_none_iff (entries : List (SymbolName × Nat)) (s : List Nat) :
    kh_get_n2s entries s = none ↔ ∀ e ∈ entries, e.1.name ≠ s := by
  induction entries with
  | nil => simp [kh_get_n2s]
  | cons e rest ih =>
    obtain ⟨key, v⟩ := e
    by_cases h : key.name = s
    · simp [kh_get_n2s, h]
    · simp only [kh_get_n2s, if_neg h, ih, List.mem_cons]
      constructor
      · rintro hall e (rfl | he)
        · exact h
        · exact hall e he
      · intro hall e he
        exact hall e (Or.inr he)

theorem kh_get_mem_names {entries : List (SymbolName × Nat)} {s : List Nat} {v : Nat}
    (h : kh_get_n2s entries s = some v) : s ∈ entries.map (fun e => e.1.name) := by
  induction entries with
  | nil => simp [kh_get_n2s] at h
  | cons e rest ih =>
    obtain ⟨key, w⟩ := e
    by_cases hk : key.name = s
    · simp [hk]
    · rw [kh_get_n2s, if_neg hk] at h
      simpa using Or.inr (ih h)

theorem kh_get_mem_values {entries : List (SymbolName × Nat)} {s : List Nat} {v : Nat}
    (h : kh_get_n2s entries s = some v) : v ∈ entries.map Prod.snd := by
  induction entries with
  | nil => simp [kh_get_n2s] at h
  | cons e rest ih =>
    obtain ⟨key, w⟩ := e
    by_cases hk : key.name = s
    · rw [kh_get_n2s, if_pos hk] at h
      simp at h
      simp [h]
    · rw [kh_get_n2s, if_neg hk] at h
      simpa using Or.inr (ih h)

theorem kh_get_found_findByValue :
    ∀ (entries : List (SymbolName × Nat)) {s : List Nat} {v : Nat},
      (entries.map Prod.snd).Nodup →
      kh_get_n2s entries s = some v → findByValue entries v = some s := by
  intro entries
  induction entries with
  | nil => intro s v _ h; simp [kh_get_n2s] at h
  | cons e rest ih =>
    intro s v hnd h
    obtain ⟨key, w⟩ := e
    simp only [List.map_cons, List.nodup_cons] at hnd
    by_cases hk : key.name = s
    · rw [kh_get_n2s, if_pos hk] at h
      simp only [Option.some.injEq] at h
      rw [findByValue, if_pos h]
      rw [hk]
    · rw [kh_get_n2s, if_neg hk] at h
      have hv : v ∈ rest.map Prod.snd := kh_get_mem_values h
      have hwv : w ≠ v := fun he => hnd.1 (he ▸ hv)
      rw [findByValue, if_neg hwv]
      exact ih hnd.2 h

theorem findByValue_append_fresh :
    ∀ (entries : List (SymbolName × Nat)) (k : SymbolName) (v : Nat),
      v ∉ entries.map Prod.snd →
      findByValue (entries ++ [(k, v)]) v = some k.name := by
  intro entries
  induction entries with
  | nil => intro k v _; simp [findByValue]
  | cons e rest ih =>
    intro k v hv
    obtain ⟨key, w⟩ := e
    simp only [List.map_cons, List.mem_cons, not_or] at hv
    rw [List.cons_append, findByValue, if_neg (fun he => hv.1 he.symm)]
    exact ih k v hv.2

theorem kh_get_append_of_none {entries : List (SymbolName × Nat)}
    {s : List Nat} (l2 : List (SymbolName × Nat))
    (h : kh_get_n2s entries s = none) :
    kh_get_n2s (entries ++ l2) s = kh_get_n2s l2 s := by
  induction entries with
  | nil => simp
  | cons e rest ih =>
    obtain ⟨key, w⟩ := e
    by_cases hk : key.name = s
    · rw [kh_get_n2s, if_pos hk] at h
      exact absurd h (by simp)
    · rw [kh_get_n2s, if_neg hk] at h
      rw [List.cons_append, kh_get_n2s, if_neg hk]
      exact ih h

theorem sym_intern_cases (mrb : MrbState) (s : List Nat) (lit : Bool) :
    (s.length > UINT16_MAX ∧ sym_intern mrb s lit = .error .nameTooLong)
    ∨ (s.length ≤ UINT16_MAX ∧ ∃ v, kh_get_n2s mrb.name2sym s = some v ∧
        sym_intern mrb s lit = .ok (v, mrb))
    ∨ (s.length ≤ UINT16_MAX ∧ kh_get_n2s mrb.name2sym s = none ∧
        sym_intern mrb s lit = .ok (mrb.symidx + 1,
          { name2sym := mrb.name2sym ++ [({ lit := lit, name := s }, mrb.symidx + 1)],
            symidx := mrb.symidx + 1 })) := by
  by_cases hl : s.length > UINT16_MAX
  · exact Or.inl ⟨hl, by rw [sym_intern, if_pos hl]⟩
  · push_neg at hl
    rcases hg : kh_get_n2s mrb.name2sym s with _ | v
    · refine Or.inr (Or.inr ⟨hl, rfl, ?_⟩)
      rw [sym_intern, if_neg (by omega), hg]
    · refine Or.inr (Or.inl ⟨hl, v, rfl, ?_⟩)
      rw [sym_intern, if_neg (by omega), hg]

theorem sym_intern_ok_lookup {mrb : MrbState} {s : List Nat} {lit : Bool}
    {id : Nat} {st₁ : MrbState}
    (h : sym_intern mrb s lit = .ok (id, st₁)) :
    kh_get_n2s st₁.name2sym s = some id ∧ s.length ≤ UINT16_MAX := by
  rcases sym_intern_cases mrb s lit with ⟨_, he⟩ | ⟨hl, v, hg, he⟩ | ⟨hl, hg, he⟩
  · rw [he] at h; exact absurd h (by simp)
  · rw [he] at h
    simp only [Except.ok.injEq, Prod.mk.injEq] at h
    obtain ⟨rfl, rfl⟩ := h
    exact ⟨hg, hl⟩
  · rw [he] at h
    simp only [Except.ok.injEq, Prod.mk.injEq] at h
    obtain ⟨rfl, rfl⟩ := h
    refine ⟨?_, hl⟩
    rw [kh_get_append_of_none _ hg, kh_get_n2s, if_pos rfl]

end MrubySymbol

namespace MrubySymbol

theorem registryInv_init : RegistryInv mrb_init_symtbl :=
  ⟨rfl, rfl⟩

theorem registryInv_internStep {st : MrbState} (h : RegistryInv st) (r : List Nat × Bool) :
    RegistryInv (internStep st r) := by
  obtain ⟨hids, hidx⟩ := h
  rcases sym_intern_cases st r.1 r.2 with ⟨_, he⟩ | ⟨_, v, _, he⟩ | ⟨_, _, he⟩
  · simp only [internStep, he]; exact ⟨hids, hidx⟩
  · simp only [internStep, he]; exact ⟨hids, hidx⟩
  · simp only [internStep, he]
    have hids' : st.name2sym.map Prod.snd = List.range' 1 st.name2sym.length := hids
    constructor
    · simp only [idsOf, List.map_append, List.length_append, List.map_cons, List.map_nil,
        List.length_cons, List.length_nil, Nat.zero_add]
      rw [hids', hidx, List.range'_1_concat]
      congr 2
      omega
    · simp only [List.length_append, List.length_cons, List.length_nil, Nat.zero_add]
      omega

theorem registryInv_foldl :
    ∀ (l : List (List Nat × Bool)) (st : MrbState), RegistryInv st →
      RegistryInv (l.foldl internStep st) := by
  intro l
  induction l with
  | nil => intro st h; exact h
  | cons r rest ih =>
    intro st h
    exact ih (internStep st r) (registryInv_internStep h r)

theorem namesOf_internStep (st : MrbState) (r : List Nat × Bool) :
    namesOf (internStep st r) =
      if r.1.length ≤ UINT16_MAX then
        (if r.1 ∈ namesOf st then namesOf st else namesOf st ++ [r.1])
      else namesOf st := by
  rcases sym_intern_cases st r.1 r.2 with ⟨hl, he⟩ | ⟨hl, v, hg, he⟩ | ⟨hl, hg, he⟩
  · simp only [internStep, he]
    rw [if_neg (by omega)]
  · have hmem : r.1 ∈ namesOf st := kh_get_mem_names hg
    simp only [internStep, he]
    rw [if_pos hl, if_pos hmem]
  · have hmem : r.1 ∉ namesOf st := by
      intro hm
      rw [kh_get_eq_none_iff] at hg
      obtain ⟨e, hel, hen⟩ := List.mem_map.mp hm
      exact hg e hel hen
    simp only [internStep, he]
    rw [if_pos hl, if_neg hmem]
    simp only [namesOf, List.map_append]
    rfl

theorem namesOf_foldl :
    ∀ (l : List (List Nat × Bool)) (st : MrbState),
      namesOf (l.foldl internStep st) =
        l.foldl
          (fun acc r =>
            if r.1.length ≤ UINT16_MAX then
              (if r.1 ∈ acc then acc else acc ++ [r.1])
            else acc)
          (namesOf st) := by
  intro l
  induction l with
  | nil => intro st; rfl
  | cons r rest ih =>
    intro st
    rw [List.foldl_cons, List.foldl_cons, ih, namesOf_internStep]

theorem namesOf_internAll (reqs : List (List Nat × Bool)) :
    namesOf (internAll reqs) = distinctInterned reqs :=
  namesOf_foldl reqs mrb_init_symtbl

theorem mem_dedup_foldl :
    ∀ (l : List (List Nat × Bool)) (acc : List (List Nat)) (s : List Nat),
      s ∈ l.foldl
            (fun acc r =>
              if r.1.length ≤ UINT16_MAX then
                (if r.1 ∈ acc then acc else acc ++ [r.1])
              else acc)
            acc →
      s ∈ acc ∨ ∃ r ∈ l, r.1 = s := by
  intro l
  induction l with
  | nil => intro acc s h; exact Or.inl h
  | cons r rest ih =>
    intro acc s h
    rw [List.foldl_cons] at h
    rcases ih _ s h with hacc | ⟨r', hr', hs⟩
    · by_cases h1 : r.1.length ≤ UINT16_MAX
      · rw [if_pos h1] at hacc
        by_cases h2 : r.1 ∈ acc
        · rw [if_pos h2] at hacc; exact Or.inl hacc
        · rw [if_neg h2] at hacc
          rcases List.mem_append.mp hacc with h3 | h3
          · exact Or.inl h3
          · exact Or.inr ⟨r, List.mem_cons_self r rest, (List.mem_singleton.mp h3).symm⟩
      · rw [if_neg h1] at hacc; exact Or.inl hacc
    · exact Or.inr ⟨r', List.mem_cons_of_mem r hr', hs⟩

end MrubySymbol

namespace MrubySymbol

theorem memcmp_min_lex :
    ∀ (p1 p2 : List Nat),
      (if memcmpBytes p1 p2 (min p1.length p2.length) = 0 then
         if p1.length = p2.length then (0 : Int)
         else if p1.length > p2.length then 1 else -1
       else if memcmpBytes p1 p2 (min p1.length p2.length) > 0 then 1 else -1)
      = lexOrdInt p1 p2 := by
  intro p1
  induction p1 with
  | nil =>
    intro p2
    cases p2 with
    | nil => simp [memcmpBytes, lexOrdInt]
    | cons y ys => simp [memcmpBytes, lexOrdInt]
  | cons x xs ih =>
    intro p2
    cases p2 with
    | nil => simp [memcmpBytes, lexOrdInt]
    | cons y ys =>
      have hmin : min (x :: xs).length (y :: ys).length = min xs.length ys.length + 1 := by
        simp [Nat.succ_min_succ]
      rw [hmin]
      by_cases hxy : x < y
      · simp [memcmpBytes, hxy, lexOrdInt]
      · by_cases hyx : y < x
        · simp [memcmpBytes, hxy, hyx, lexOrdInt]
        · have heq : memcmpBytes (x :: xs) (y :: ys) (min xs.length ys.length + 1)
              = memcmpBytes xs ys (min xs.length ys.length) := by
            simp [memcmpBytes, hxy, hyx]
          rw [heq]
          have hlex : lexOrdInt (x :: xs) (y :: ys) = lexOrdInt xs ys := by
            simp [lexOrdInt, hxy, hyx]
          rw [hlex]
          have hlen1 : ((x :: xs).length = (y :: ys).length) ↔ (xs.length = ys.length) := by
            simp
          have hlen2 : ((x :: xs).length > (y :: ys).length) ↔ (xs.length > ys.length) := by
            simp [List.length_cons]
          rw [if_congr Iff.rfl (if_congr hlen1 rfl (if_congr hlen2 rfl rfl)) rfl]
          exact ih ys

theorem strlenOf_append_null_le :
    ∀ (pre post : List Nat), strlenOf (pre ++ 0 :: post) ≤ pre.length := by
  intro pre post
  induction pre with
  | nil => simp [strlenOf, List.takeWhile]
  | cons a t ih =>
    by_cases ha : a = 0
    · subst ha
      simp [strlenOf, List.takeWhile]
    · have hab : (a != 0) = true := by simpa using ha
      simp only [strlenOf, List.cons_append, List.takeWhile_cons, hab, if_true,
        List.length_cons] at ih ⊢
      omega

theorem atEnd_of_no_null {l : List Nat} (h : (0 : Nat) ∉ l) : atEnd l = l.isEmpty := by
  cases l with
  | nil => rfl
  | cons a t =>
    have ha : a ≠ 0 := fun he => h (by simp [he])
    simp [atEnd, ha]

theorem atEnd_dropWhile_of_no_null (p : Nat → Bool) :
    ∀ (l : List Nat), (0 : Nat) ∉ l → atEnd (l.dropWhile p) = l.all p := by
  intro l
  induction l with
  | nil => intro _; rfl
  | cons a t ih =>
    intro h
    have ha : a ≠ 0 := fun he => h (by simp [he])
    have h0t : (0 : Nat) ∉ t := fun he => h (List.mem_cons_of_mem a he)
    by_cases hp : p a
    · rw [List.dropWhile_cons, if_pos hp, ih h0t, List.all_cons, hp, Bool.true_and]
    · rw [List.dropWhile_cons, if_neg hp, List.all_cons]
      have hpa : p a = false := by simpa using hp
      simp [atEnd, ha, hpa]

end MrubySymbol


namespace MrubySymbol

theorem is_identchar_of_letter {c : Nat} (hc : c = 95 ∨ ISALPHA c = true) :
    is_identchar c = true := by
  rcases hc with rfl | h
  · decide
  · simp only [ISALPHA, ISUPPER, ISLOWER, Bool.or_eq_true, decide_eq_true_eq] at h
    rcases h with ⟨h1, h2⟩ | ⟨h1, h2⟩ <;> interval_cases c <;> decide

theorem suffix_char_not_identchar {c : Nat} (hc : c = 33 ∨ c = 63 ∨ c = 61) :
    is_identchar c = false := by
  rcases hc with rfl | rfl | rfl <;> decide

end MrubySymbol

namespace MrubySymbol

theorem symname_id_tail_loop (localid : Bool) :
    ∀ (cs : List Nat), (0 : Nat) ∉ cs →
      atEnd
        (if localid &&
            (decide ((cs.dropWhile (fun ch => is_identchar ch)).headD 0 = 33) ||
             decide ((cs.dropWhile (fun ch => is_identchar ch)).headD 0 = 63) ||
             decide ((cs.dropWhile (fun ch => is_identchar ch)).headD 0 = 61)) then
           (cs.dropWhile (fun ch => is_identchar ch)).drop 1
         else cs.dropWhile (fun ch => is_identchar ch))
      = if localid then runThenOptSuffix cs else cs.all (fun ch => is_identchar ch) := by
  intro cs
  induction cs with
  | nil =>
    intro _
    cases localid <;> simp [runThenOptSuffix, atEnd]
  | cons a t ih =>
    intro h
    have ha : a ≠ 0 := fun he => h (by simp [he])
    have h0t : (0 : Nat) ∉ t := fun he => h (List.mem_cons_of_mem a he)
    by_cases hid : is_identchar a = true
    · rw [show (a :: t).dropWhile (fun ch => is_identchar ch) = t.dropWhile (fun ch => is_identchar ch) by
        rw [List.dropWhile_cons, if_pos hid]]
      rw [ih h0t]
      cases t with
      | nil =>
        cases localid <;> simp [runThenOptSuffix, hid]
      | cons b u =>
        cases localid with
        | false => simp [hid]
        | true => simp [runThenOptSuffix, hid]
    · have hid' : is_identchar a = false := by simpa using hid
      have hdw : (a :: t).dropWhile (fun ch => is_identchar ch) = a :: t := by
        rw [List.dropWhile_cons, if_neg hid]
      rw [hdw]
      by_cases hsuf : a = 33 ∨ a = 63 ∨ a = 61
      · have hdec : (decide ((a :: t).headD 0 = 33) || decide ((a :: t).headD 0 = 63) ||
            decide ((a :: t).headD 0 = 61)) = true := by
          rcases hsuf with rfl | rfl | rfl <;> simp
        cases localid with
        | false =>
          rw [Bool.false_and, if_neg (by simp)]
          rw [atEnd_of_no_null h]
          simp [List.all_cons, hid']
        | true =>
          rw [Bool.true_and, hdec, if_pos rfl]
          rw [List.drop_one, List.tail_cons]
          rw [atEnd_of_no_null h0t]
          cases t with
          | nil =>
            rcases hsuf with rfl | rfl | rfl <;> simp [runThenOptSuffix, hid']
          | cons b u =>
            simp [runThenOptSuffix, hid']
      · have h33 : a ≠ 33 := fun he => hsuf (Or.inl he)
        have h63 : a ≠ 63 := fun he => hsuf (Or.inr (Or.inl he))
        have h61 : a ≠ 61 := fun he => hsuf (Or.inr (Or.inr he))
        have hdec : (decide ((a :: t).headD 0 = 33) || decide ((a :: t).headD 0 = 63) ||
            decide ((a :: t).headD 0 = 61)) = false := by
          simp [h33, h63, h61]
        rw [hdec, Bool.and_false, if_neg (by simp)]
        have hend : atEnd (a :: t) = false := by
          simp [atEnd, ha]
        rw [hend]
        cases localid with
        | false => simp [List.all_cons, hid']
        | true =>
          cases t with
          | nil => simp [runThenOptSuffix, hid', h33, h63, h61]
          | cons b u => simp [runThenOptSuffix, hid']

end MrubySymbol

namespace MrubySymbol

theorem symname_id_tail_eq (localid : Bool) :
    ∀ (m : List Nat), (0 : Nat) ∉ m →
      symname_id_tail localid m =
        match m with
        | [] => false
        | c :: cs =>
          (decide (c = 95) || ISALPHA c) &&
          (if localid then runThenOptSuffix cs else cs.all (fun ch => is_identchar ch)) := by
  intro m h
  cases m with
  | nil => cases localid <;> decide
  | cons c cs =>
    have h0cs : (0 : Nat) ∉ cs := fun he => h (List.mem_cons_of_mem c he)
    by_cases hc : c = 95 ∨ ISALPHA c = true
    · have hcond : ¬(c ≠ 95 ∧ ¬ ISALPHA c = true) := by tauto
      have hok : (decide (c = 95) || ISALPHA c) = true := by
        rcases hc with rfl | hA
        · simp
        · simp [hA]
      simp only [symname_id_tail, List.headD_cons]
      rw [if_neg hcond]
      rw [show (c :: cs).dropWhile (fun ch => is_identchar ch)
            = cs.dropWhile (fun ch => is_identchar ch) by
        rw [List.dropWhile_cons, if_pos (is_identchar_of_letter hc)]]
      rw [symname_id_tail_loop localid cs h0cs]
      simp only [hok, Bool.true_and]
    · have hcond : (c ≠ 95 ∧ ¬ ISALPHA c = true) := by tauto
      have hok : (decide (c = 95) || ISALPHA c) = false := by
        push_neg at hc
        simp [hc.1, hc.2]
      simp only [symname_id_tail, List.headD_cons]
      rw [if_pos hcond]
      simp only [hok, Bool.false_and]

theorem symname_p_letter {c : Nat} (cs : List Nat)
    (hc : c = 95 ∨ ISALPHA c = true) :
    symname_p (c :: cs) = symname_id_tail (! ISUPPER c) (c :: cs) := by
  have h65 : c = 95 ∨ (65 ≤ c ∧ c ≤ 90) ∨ (97 ≤ c ∧ c ≤ 122) := by
    rcases hc with rfl | hA
    · exact Or.inl rfl
    · simp only [ISALPHA, ISUPPER, ISLOWER, Bool.or_eq_true, decide_eq_true_eq] at hA
      exact Or.inr hA
  rcases h65 with h1 | ⟨h1, h2⟩ | ⟨h1, h2⟩ <;>
    (simp only [symname_p, List.headD_cons]
     rw [if_neg (by omega : ¬ c = 0)]
     rw [if_neg (by omega : ¬ c = 36)]
     rw [if_neg (by omega : ¬ c = 64)]
     rw [if_neg (by omega : ¬ c = 60)]
     rw [if_neg (by omega : ¬ c = 62)]
     rw [if_neg (by omega : ¬ c = 61)]
     rw [if_neg (by omega : ¬ c = 42)]
     rw [if_neg (by omega : ¬ c = 33)]
     rw [if_neg (by omega : ¬ (c = 43 ∨ c = 45))]
     rw [if_neg (by omega : ¬ c = 124)]
     rw [if_neg (by omega : ¬ c = 38)]
     rw [if_neg (by omega : ¬ (c = 94 ∨ c = 47 ∨ c = 37 ∨ c = 126 ∨ c = 96))]
     rw [if_neg (by omega : ¬ c = 91)])

end MrubySymbol

namespace MrubySymbol

theorem special_not_digit {c : Nat} (hsp : isSpecialGlobalChar c = true) (h48 : ¬ c = 48) :
    ISDIGIT c = false := by
  simp only [isSpecialGlobalChar, decide_eq_true_eq] at hsp
  simp only [ISDIGIT, decide_eq_false_iff_not]
  omega

theorem is_special_global_eq :
    ∀ (rest : List Nat), (0 : Nat) ∉ rest →
      is_special_global_name rest =
        ((match rest with
          | [c] => isSpecialGlobalChar c
          | _ => false) ||
         (match rest with
          | c :: cs =>
            decide (c = 45) &&
            (cs.isEmpty || (match cs with | [x] => is_identchar x | _ => false))
          | [] => false) ||
         (match rest with
          | c :: cs => ISDIGIT c && decide (c ≠ 48) && cs.all (fun ch => ISDIGIT ch)
          | [] => false)) := by
  intro rest h
  cases rest with
  | nil => decide
  | cons c cs =>
    have ha : c ≠ 0 := fun he => h (by simp [he])
    have h0cs : (0 : Nat) ∉ cs := fun he => h (List.mem_cons_of_mem c he)
    by_cases hsp : isSpecialGlobalChar c = true
    · have hne45 : ¬ c = 45 := by
        simp only [isSpecialGlobalChar, decide_eq_true_eq] at hsp
        omega
      simp only [is_special_global_name, List.headD_cons]
      rw [if_pos hsp]
      rw [List.drop_one, List.tail_cons, atEnd_of_no_null h0cs]
      cases cs with
      | nil => simp [hsp]
      | cons b u =>
        by_cases h48 : c = 48
        · subst h48
          simp
        · have hdF : ISDIGIT c = false := special_not_digit hsp h48
          simp [hne45, hdF]
    · have hsp' : isSpecialGlobalChar c = false := by simpa using hsp
      by_cases h45 : c = 45
      · have hd45 : ISDIGIT (45:Nat) = false := by decide
        simp only [is_special_global_name, List.headD_cons]
        rw [if_neg hsp, if_pos h45]
        rw [List.drop_one, List.tail_cons]
        cases cs with
        | nil =>
          rw [show ([] : List Nat).headD 0 = 0 from rfl]
          rw [if_neg (by decide : ¬ is_identchar 0 = true)]
          simp [hsp', h45, atEnd, hd45]
        | cons b u =>
          have hb : b ≠ 0 := fun he => h0cs (by simp [he])
          have h0u : (0 : Nat) ∉ u := fun he => h0cs (List.mem_cons_of_mem b he)
          by_cases hib : is_identchar b = true
          · rw [List.headD_cons, if_pos hib, List.drop_one, List.tail_cons,
              atEnd_of_no_null h0u]
            cases u with
            | nil => simp [hsp', h45, hib, hd45]
            | cons v w => simp [hsp', h45, hd45]
          · have hib' : is_identchar b = false := by simpa using hib
            rw [List.headD_cons, if_neg hib]
            have hend : atEnd (b :: u) = false := by simp [atEnd, hb]
            rw [hend]
            cases u with
            | nil => simp [hsp', h45, hib', hd45]
            | cons v w => simp [hsp', h45, hd45]
      · by_cases hd : ISDIGIT c = true
        · have h48 : ¬ c = 48 := by
            intro he
            rw [he] at hsp'
            exact absurd hsp' (by decide)
          simp only [is_special_global_name, List.headD_cons]
          rw [if_neg hsp, if_neg h45, if_pos hd]
          rw [List.drop_one, List.tail_cons,
            atEnd_dropWhile_of_no_null (fun ch => ISDIGIT ch) cs h0cs]
          cases cs with
          | nil => simp [hsp', hd, h48]
          | cons b u => simp [hd, h48, h45]
        · have hd' : ISDIGIT c = false := by simpa using hd
          simp only [is_special_global_name, List.headD_cons]
          rw [if_neg hsp, if_neg h45, if_neg hd]
          cases cs with
          | nil => simp [hsp', hd', h45]
          | cons b u => simp [hd', h45]

end MrubySymbol

namespace MrubySymbol

theorem lexOrdInt_self : ∀ (n : List Nat), lexOrdInt n n = 0 := by
  intro n
  induction n with
  | nil => rfl
  | cons x xs ih => simp [lexOrdInt, ih]

theorem memcmp_min_lex_opt (p1 p2 : List Nat) :
    (if memcmpBytes p1 p2 (min p1.length p2.length) = 0 then
       if p1.length = p2.length then some (0 : Int)
       else if p1.length > p2.length then some 1 else some (-1)
     else if memcmpBytes p1 p2 (min p1.length p2.length) > 0 then some 1 else some (-1))
    = some (lexOrdInt p1 p2) := by
  rw [← memcmp_min_lex p1 p2]
  rw [apply_ite some, apply_ite some, apply_ite some, apply_ite some]

/-- C1: interning is idempotent and mode-independent: once `s` has been
interned (in either storage mode), a later `sym_intern` call with
byte-identical content -- again in either mode -- returns the same id as the
first call and leaves the registry exactly as it was, creating no second
entry; equality is decided by `(length, bytes)` content only, never by the
`lit` ownership tag. -/
theorem intern_idempotent_mode_independent
    (mrb : MrbState) (s : List Nat) (lit₁ lit₂ : Bool) (id : Nat) (st₁ : MrbState)
    (h : sym_intern mrb s lit₁ = .ok (id, st₁)) :
    sym_intern st₁ s lit₂ = .ok (id, st₁) := by
  obtain ⟨hget, hlen⟩ := sym_intern_ok_lookup h
  rw [sym_intern, if_neg (by omega), hget]

theorem intern_idempotent_mode_independent_witness :
    sym_intern { name2sym := [({ lit := true, name := [102, 111, 111] }, 1)], symidx := 1 }
        [102, 111, 111] false
      = .ok (1, { name2sym := [({ lit := true, name := [102, 111, 111] }, 1)], symidx := 1 }) :=
  intern_idempotent_mode_independent mrb_init_symtbl [102, 111, 111] true false 1 _ rfl

/-- C2: monotonic id allocation: starting from the empty registry, after any
sequence of intern requests the table's names are exactly the distinct legal
byte strings in order of first interning and the ids column is exactly
`1, 2, ..., n` in that same order -- so the k-th distinct string interned
receives id `k`, ids start at 1, increase by exactly 1 per new distinct
string, and (`Nodup`) no id is ever reused or assigned to two entries. -/
theorem intern_monotonic_allocation (reqs : List (List Nat × Bool)) :
    namesOf (internAll reqs) = distinctInterned reqs
    ∧ idsOf (internAll reqs) = List.range' 1 (distinctInterned reqs).length
    ∧ (idsOf (internAll reqs)).Nodup
    ∧ (internAll reqs).symidx = (distinctInterned reqs).length := by
  have hinv : RegistryInv (internAll reqs) :=
    registryInv_foldl reqs mrb_init_symtbl registryInv_init
  have hnames := namesOf_internAll reqs
  have hlen : (internAll reqs).name2sym.length = (distinctInterned reqs).length := by
    have h2 : (namesOf (internAll reqs)).length = (distinctInterned reqs).length := by
      rw [hnames]
    simpa [namesOf] using h2
  obtain ⟨hids, hidx⟩ := hinv
  refine ⟨hnames, ?_, ?_, ?_⟩
  · rw [hids, hlen]
  · rw [hids]
    exact List.nodup_range' _ _
  · rw [hidx, hlen]

/-- C3: length bound with atomic failure: `sym_intern` (both modes) and
`mrb_check_intern` succeed for every length up to and including
`UINT16_MAX = 65535` and fail with the name-too-long error for every greater
length; the check precedes lookup and insertion, so a failing call leaves the
registry completely unchanged. -/
theorem intern_length_gate (mrb : MrbState) (s : List Nat) (lit : Bool) :
    (s.length ≤ UINT16_MAX →
      (∃ id st₁, sym_intern mrb s lit = .ok (id, st₁)) ∧
      (∃ r, mrb_check_intern mrb s = .ok r))
    ∧ (s.length > UINT16_MAX →
      sym_intern mrb s lit = .error .nameTooLong ∧
      mrb_check_intern mrb s = .error .nameTooLong ∧
      internStep mrb (s, lit) = mrb) := by
  constructor
  · intro hle
    constructor
    · rcases sym_intern_cases mrb s lit with ⟨hgt, _⟩ | ⟨_, v, _, he⟩ | ⟨_, _, he⟩
      · omega
      · exact ⟨v, mrb, he⟩
      · exact ⟨_, _, he⟩
    · exact ⟨_, by rw [mrb_check_intern, if_neg (by omega)]⟩
  · intro hgt
    have h1 : sym_intern mrb s lit = .error .nameTooLong := by
      rw [sym_intern, if_pos hgt]
    refine ⟨h1, by rw [mrb_check_intern, if_pos hgt], ?_⟩
    simp only [internStep, h1]

theorem intern_length_gate_witness :
    sym_intern mrb_init_symtbl (List.replicate 65536 97) false = .error .nameTooLong
    ∧ internStep mrb_init_symtbl (List.replicate 65536 97, false) = mrb_init_symtbl
    ∧ mrb_check_intern mrb_init_symtbl [97] = .ok none := by
  have h2 := (intern_length_gate mrb_init_symtbl (List.replicate 65536 97) false).2
    (by simp only [List.length_replicate, UINT16_MAX]; omega)
  exact ⟨h2.1, h2.2.2, rfl⟩

/-- C4: round trip: in any registry state satisfying the reachable-state
invariant, after a successful `sym_intern` of `s` (either storage mode) the
reverse query `mrb_sym2name_len` on the returned id yields exactly the byte
string `s` (whose list length is the stored length). -/
theorem intern_lookupName_roundtrip
    (mrb : MrbState) (s : List Nat) (lit : Bool) (id : Nat) (st₁ : MrbState)
    (hinv : RegistryInv mrb)
    (h : sym_intern mrb s lit = .ok (id, st₁)) :
    mrb_sym2name_len st₁ id = some s := by
  obtain ⟨hids, hidx⟩ := hinv
  have hnd : (mrb.name2sym.map Prod.snd).Nodup := by
    rw [show mrb.name2sym.map Prod.snd = idsOf mrb from rfl, hids]
    exact List.nodup_range' _ _
  rcases sym_intern_cases mrb s lit with ⟨_, he⟩ | ⟨hl, v, hg, he⟩ | ⟨hl, hg, he⟩
  · rw [he] at h
    exact absurd h (by simp)
  · rw [he] at h
    simp only [Except.ok.injEq, Prod.mk.injEq] at h
    obtain ⟨rfl, rfl⟩ := h
    exact kh_get_found_findByValue mrb.name2sym hnd hg
  · rw [he] at h
    simp only [Except.ok.injEq, Prod.mk.injEq] at h
    obtain ⟨rfl, rfl⟩ := h
    have hfresh : mrb.symidx + 1 ∉ mrb.name2sym.map Prod.snd := by
      intro hmem
      rw [show mrb.name2sym.map Prod.snd = idsOf mrb from rfl, hids,
        List.mem_range'_1] at hmem
      omega
    exact findByValue_append_fresh mrb.name2sym _ _ hfresh

theorem intern_lookupName_roundtrip_witness :
    mrb_sym2name_len { name2sym := [({ lit := false, name := [97] }, 1)], symidx := 1 } 1
      = some [97] :=
  intern_lookupName_roundtrip mrb_init_symtbl [97] false 1 _ ⟨rfl, rfl⟩ rfl

end MrubySymbol

namespace MrubySymbol

theorem symname_p_dollar_branch (rest : List Nat) :
    symname_p (36 :: rest) =
      (is_special_global_name rest || symname_id_tail false rest) := by
  simp only [symname_p, List.headD_cons]
  rw [if_pos trivial]
  rw [List.drop_one, List.tail_cons]
  by_cases hs : is_special_global_name rest = true
  · rw [if_pos hs, hs, Bool.true_or]
    simp
  · have hs' : is_special_global_name rest = false := by simpa using hs
    rw [if_neg hs, hs', Bool.false_or]
    simp

/-- C6 (amended): for every null-free name beginning with the byte `$` (36),
the classifier reports bare exactly when the remainder is a single character
of the fixed special set (which contains the digit `0`), or `-` followed by
zero or one identifier character, or a nonzero digit followed by zero or more
digits, or a normal identifier tail (letter or underscore followed by
identifier characters) -- in each case with the whole input consumed. -/
theorem dollar_grammar_amended (rest : List Nat) (h : (0 : Nat) ∉ rest) :
    symname_p (36 :: rest) = dollarNameAmended rest := by
  rw [symname_p_dollar_branch, is_special_global_eq rest h, symname_id_tail_eq false rest h]
  cases rest with
  | nil => decide
  | cons c cs =>
    simp only [dollarNameAmended, Bool.if_false_left]
    cases hi : ((decide (c = 95) || ISALPHA c) && cs.all (fun ch => is_identchar ch)) <;>
      simp [hi, Bool.or_assoc]

/-- C8: for every null-free name starting with a letter or underscore, the
classifier reports bare exactly when the name is a run of identifier
characters optionally followed by one trailing `!`, `?`, or `=`, the trailing
character being permitted only when the first character is not an uppercase
letter (so "foo!" is bare while "Foo!" is not). -/
theorem ident_suffix_classifier (c : Nat) (cs : List Nat)
    (hc : c = 95 ∨ ISALPHA c = true) (h : (0 : Nat) ∉ c :: cs) :
    symname_p (c :: cs) = identSuffixClaim (c :: cs) := by
  rw [symname_p_letter cs hc, symname_id_tail_eq (! ISUPPER c) (c :: cs) h]
  cases hU : ISUPPER c <;> simp [identSuffixClaim, hU]

end MrubySymbol

namespace MrubySymbol

/-- C5: display escaping on mismatch: formatting a symbol produces the bare
`:name` form exactly when the classifier accepts the stored name and the
null-terminated scan length (`strlen`) equals the stored byte length;
whenever the classifier rejects the name or the lengths disagree -- in
particular for any stored name containing an embedded null byte -- the
escaped/quoted representation is produced instead. -/
theorem sym_inspect_bare_condition
    (mrb : MrbState) (sym : Nat) (name : List Nat)
    (h : mrb_sym2name_len mrb sym = some name) :
    (sym_inspect mrb sym = some (InspectForm.bare (58 :: name)) ↔
      (symname_p name = true ∧ strlenOf name = name.length))
    ∧ (sym_inspect mrb sym = some (InspectForm.escaped name) ↔
      ¬ (symname_p name = true ∧ strlenOf name = name.length))
    ∧ (∀ pre post : List Nat, name = pre ++ 0 :: post →
        sym_inspect mrb sym = some (InspectForm.escaped name)) := by
  have hrw : sym_inspect mrb sym =
      some (if symname_p name && (strlenOf name == name.length) then
              InspectForm.bare (58 :: name)
            else InspectForm.escaped name) := by
    rw [sym_inspect, h]
    rfl
  have hsplit : ∀ he : (symname_p name && (strlenOf name == name.length)) = false,
      ¬ (symname_p name = true ∧ strlenOf name = name.length) := by
    intro he hc
    rw [hc.1, Bool.true_and] at he
    rw [hc.2] at he
    simp at he
  refine ⟨?_, ?_, ?_⟩
  · rw [hrw]
    by_cases hb : (symname_p name && (strlenOf name == name.length)) = true
    · rw [if_pos hb]
      simp only [Bool.and_eq_true, beq_iff_eq] at hb
      simp [hb]
    · have hb' : (symname_p name && (strlenOf name == name.length)) = false := by
        simpa using hb
      rw [if_neg hb]
      simp only [Option.some.injEq]
      constructor
      · intro he
        exact InspectForm.noConfusion he
      · intro hab
        exact absurd hab (hsplit hb')
  · rw [hrw]
    by_cases hb : (symname_p name && (strlenOf name == name.length)) = true
    · rw [if_pos hb]
      simp only [Bool.and_eq_true, beq_iff_eq] at hb
      simp only [Option.some.injEq]
      constructor
      · intro he
        exact InspectForm.noConfusion he
      · intro hne
        exact absurd hb hne
    · have hb' : (symname_p name && (strlenOf name == name.length)) = false := by
        simpa using hb
      rw [if_neg hb]
      simp [hsplit hb']
  · intro pre post hname
    have hlt : strlenOf name < name.length := by
      have hle := strlenOf_append_null_le pre post
      rw [hname]
      have : pre.length < (pre ++ 0 :: post).length := by
        rw [List.length_append, List.length_cons]
        omega
      omega
    have hbeq : (strlenOf name == name.length) = false := by
      simp only [beq_eq_false_iff_ne, ne_eq]
      omega
    rw [hrw, if_neg (by simp [hbeq])]

theorem sym_inspect_bare_condition_witness :
    sym_inspect { name2sym := [({ lit := false, name := [102, 0, 111] }, 1)], symidx := 1 } 1
      = some (InspectForm.escaped [102, 0, 111]) :=
  (sym_inspect_bare_condition
    { name2sym := [({ lit := false, name := [102, 0, 111] }, 1)], symidx := 1 }
    1 [102, 0, 111] rfl).2.2 [102] [111] rfl

/-- C6 counterexample: the claim's special-global grammar accepts the
remainder "00" (two digits, "one or more digits"), but the classifier
rejects the name "$00": the leading `0` is consumed as a member of the fixed
special set and the second `0` is left over, so `symname_p` returns false. -/
theorem dollar_grammar_counterexample :
    dollarNameClaim [48, 48] = true ∧ symname_p [36, 48, 48] = false := by
  constructor <;> rfl

theorem dollar_grammar_amended_witness :
    symname_p [36, 45] = true ∧ symname_p [36, 49, 50] = true ∧ symname_p [36, 48, 48] = false :=
  ⟨(dollar_grammar_amended [45] (by decide)).trans (by decide),
   (dollar_grammar_amended [49, 50] (by decide)).trans (by decide),
   (dollar_grammar_amended [48, 48] (by decide)).trans (by decide)⟩

theorem ident_suffix_classifier_witness :
    symname_p [102, 111, 111, 33] = true ∧ symname_p [70, 111, 111, 33] = false :=
  ⟨(ident_suffix_classifier 102 [111, 111, 33] (by decide) (by decide)).trans (by decide),
   (ident_suffix_classifier 70 [111, 111, 33] (by decide) (by decide)).trans (by decide)⟩

/-- C7: symbol ordering is total and consistent with lexicographic byte
ordering: comparing an id with itself yields 0, and for any two ids whose
names are present the result equals the lexicographic comparison of the two
byte strings (byte-wise over the shared prefix, the shorter string sorting
strictly first on a tie), as a value in -1/0/1. -/
theorem sym_cmp_lex_order :
    (∀ (mrb : MrbState) (a : Nat), sym_cmp mrb a a = some 0)
    ∧ (∀ (mrb : MrbState) (a b : Nat) (n1 n2 : List Nat),
        mrb_sym2name_len mrb a = some n1 → mrb_sym2name_len mrb b = some n2 →
        sym_cmp mrb a b = some (lexOrdInt n1 n2)) := by
  constructor
  · intro mrb a
    rw [sym_cmp, if_pos rfl]
  · intro mrb a b n1 n2 h1 h2
    by_cases hab : a = b
    · subst hab
      rw [h1] at h2
      injection h2 with h2
      subst h2
      rw [sym_cmp, if_pos rfl, lexOrdInt_self]
    · simp only [sym_cmp, h1, h2]
      rw [if_neg hab]
      exact memcmp_min_lex_opt n1 n2

theorem sym_cmp_lex_order_witness :
    sym_cmp { name2sym := [({ lit := true, name := [97, 98] }, 1),
                           ({ lit := true, name := [97, 98, 99] }, 2),
                           ({ lit := true, name := [98, 97] }, 3)], symidx := 3 } 1 2
      = some (-1)
    ∧ sym_cmp { name2sym := [({ lit := true, name := [97, 98] }, 1),
                             ({ lit := true, name := [97, 98, 99] }, 2),
                             ({ lit := true, name := [98, 97] }, 3)], symidx := 3 } 3 1
      = some 1 :=
  ⟨(sym_cmp_lex_order.2
      { name2sym := [({ lit := true, name := [97, 98] }, 1),
                     ({ lit := true, name := [97, 98, 99] }, 2),
                     ({ lit := true, name := [98, 97] }, 3)], symidx := 3 }
      1 2 [97, 98] [97, 98, 99] rfl rfl).trans (by decide),
   (sym_cmp_lex_order.2
      { name2sym := [({ lit := true, name := [97, 98] }, 1),
                     ({ lit := true, name := [97, 98, 99] }, 2),
                     ({ lit := true, name := [98, 97] }, 3)], symidx := 3 }
      3 1 [98, 97] [97, 98] rfl rfl).trans (by decide)⟩

/-- C9: `mrb_check_intern` is a pure probe: it performs no mutation (in the
model it returns no state at all, mirroring the read-only `kh_get`), it
returns the matching id for any string previously interned in either storage
mode, and it returns nil/none for any legal-length string that was never
interned in the whole request history. -/
theorem check_intern_pure_probe :
    (∀ (mrb : MrbState) (s : List Nat) (lit : Bool) (id : Nat) (st₁ : MrbState),
      sym_intern mrb s lit = .ok (id, st₁) → mrb_check_intern st₁ s = .ok (some id))
    ∧ (∀ (reqs : List (List Nat × Bool)) (s : List Nat),
        s.length ≤ UINT16_MAX → (∀ r ∈ reqs, r.1 ≠ s) →
        mrb_check_intern (internAll reqs) s = .ok none) := by
  constructor
  · intro mrb s lit id st₁ h
    obtain ⟨hget, hlen⟩ := sym_intern_ok_lookup h
    rw [mrb_check_intern, if_neg (by omega), hget]
  · intro reqs s hle hnot
    have hmem : s ∉ namesOf (internAll reqs) := by
      intro hm
      rw [namesOf_internAll] at hm
      rcases mem_dedup_foldl reqs [] s hm with h0 | ⟨r, hr, hrs⟩
      · simp at h0
      · exact hnot r hr hrs
    have hget : kh_get_n2s (internAll reqs).name2sym s = none := by
      rw [kh_get_eq_none_iff]
      intro e he hen
      exact hmem (hen ▸ List.mem_map_of_mem (fun e => e.1.name) he)
    rw [mrb_check_intern, if_neg (by omega), hget]

theorem check_intern_pure_probe_witness :
    mrb_check_intern { name2sym := [({ lit := true, name := [102] }, 1)], symidx := 1 } [102]
      = .ok (some 1)
    ∧ mrb_check_intern (internAll [([102], true)]) [103] = .ok none :=
  ⟨check_intern_pure_probe.1 mrb_init_symtbl [102] true 1 _ rfl,
   check_intern_pure_probe.2 [([102], true)] [103] (by decide) (by decide)⟩

/-- C10: the empty byte string (length 0) is interned like any other name:
the first call on the fresh registry assigns id 1, repeated calls in either
storage mode return the same id without changing the registry,
`mrb_sym2name_len` maps the id back to the length-0 string -- even though
the classifier treats the empty name as not bare. -/
theorem empty_string_interning :
    ∃ st₀ : MrbState,
      sym_intern mrb_init_symtbl [] false = .ok (1, st₀)
      ∧ sym_intern st₀ [] false = .ok (1, st₀)
      ∧ sym_intern st₀ [] true = .ok (1, st₀)
      ∧ mrb_sym2name_len st₀ 1 = some []
      ∧ symname_p [] = false :=
  ⟨{ name2sym := [({ lit := false, name := [] }, 1)], symidx := 1 }, rfl, rfl, rfl, rfl, rfl⟩

end MrubySymbol
